import Mathlib

/-!
Verification of the Google Classroom attachment-downloader extension.

Strings are modelled as `List Char`.  Each definition below is a direct
shallow embedding of the corresponding JavaScript function from
`src/background.js` or `src/content.js`; the JS regular expressions are
unfolded into explicit list scans with the same leftmost-match semantics.
-/

/-- Characters matched by the JS `\s` class (and by `String.prototype.trim`). -/
def isWS (c : Char) : Bool :=
  c.toNat = 0x20 || (0x9 ≤ c.toNat && c.toNat ≤ 0xD) || c.toNat = 0xA0 ||
  c.toNat = 0x1680 || (0x2000 ≤ c.toNat && c.toNat ≤ 0x200A) ||
  c.toNat = 0x2028 || c.toNat = 0x2029 || c.toNat = 0x202F ||
  c.toNat = 0x205F || c.toNat = 0x3000 || c.toNat = 0xFEFF

/-- The illegal-filename character class `[<>:"/\\|?*]` from `background.js`. -/
def isIllegalChar (c : Char) : Bool :=
  c = '<' || c = '>' || c = ':' || c = '"' || c = '/' || c = '\\' ||
  c = '|' || c = '?' || c = '*'

/-- `sanitizeFolderName`'s per-character replacement: illegal characters become a space. -/
def repFolder (c : Char) : Char := if isIllegalChar c then ' ' else c

/-- `sanitizeFilename`'s per-character replacement: illegal characters become an underscore. -/
def repFile (c : Char) : Char := if isIllegalChar c then '_' else c

/-- JS `replace(/\s+/g, " ")`: every maximal run of whitespace becomes one space. -/
def collapseWS : List Char → List Char
  | [] => []
  | [c] => if isWS c then [' '] else [c]
  | c :: d :: rest =>
    if isWS c then
      if isWS d then collapseWS (d :: rest) else ' ' :: collapseWS (d :: rest)
    else c :: collapseWS (d :: rest)

/-- Drop the maximal trailing run of characters satisfying `p`. -/
def dropTrailing (p : Char → Bool) : List Char → List Char
  | [] => []
  | c :: cs =>
    let r := dropTrailing p cs
    if r = [] && p c then [] else c :: r

/-- Remove the maximal leading and trailing runs of characters satisfying `p`
(the effect of JS `replace(/^[X]+|[X]+$/g, "")` for a character class `X`,
and of `String.prototype.trim` for `p = isWS`). -/
def trimWith (p : Char → Bool) (l : List Char) : List Char :=
  dropTrailing p (l.dropWhile p)

/-- JS `String.prototype.trim`. -/
def jsTrim (l : List Char) : List Char := trimWith isWS l

/-- The trim class `[\s._]` used by `sanitizeFilename`. -/
def isTrimCh (c : Char) : Bool := isWS c || c = '.' || c = '_'

/-- The replace/collapse/trim/truncate pipeline shared by both sanitizers,
parametrised by the character replacement, the trim class and the length cap. -/
def sanitizeCore (rep : Char → Char) (p : Char → Bool) (k : Nat) (l : List Char) :
    List Char :=
  (trimWith p (collapseWS (l.map rep))).take k

/-- `background.js` line 173: `sanitizeFolderName`. -/
def sanitizeFolderName (name : List Char) : List Char :=
  if name = [] then "Classroom_Download".data
  else if sanitizeCore repFolder isWS 100 name = [] then "Classroom_Download".data
  else sanitizeCore repFolder isWS 100 name

/-- ASCII alphanumeric test, the `[a-zA-Z0-9]` class. -/
def isAlnumCh (c : Char) : Bool :=
  ('a' ≤ c && c ≤ 'z') || ('A' ≤ c && c ≤ 'Z') || ('0' ≤ c && c ≤ '9')

/-- The extension split performed by `sanitizeFilename`: the test
`/\.[a-zA-Z0-9]{2,5}$/` succeeds exactly when the maximal trailing
alphanumeric run has length 2..5 and is preceded by a dot, and then
`/\.([a-zA-Z0-9]+)$/` captures that dot plus the run.  Returns
`some (nameWithoutExt, ext)` in that case. -/
def extSplit (l : List Char) : Option (List Char × List Char) :=
  let r := l.reverse
  let run := r.takeWhile isAlnumCh
  match r.dropWhile isAlnumCh with
  | '.' :: pre =>
    if 2 ≤ run.length && run.length ≤ 5 then
      some (pre.reverse, '.' :: run.reverse)
    else none
  | _ => none

/-- JS `String.prototype.includes`: `containsSub sub l` is true when `sub`
occurs contiguously in `l`. -/
def containsSub (sub : List Char) : List Char → Bool
  | [] => sub.isEmpty
  | c :: cs => sub.isPrefixOf (c :: cs) || containsSub sub cs

/-- The URL-implied extension of `sanitizeFilename` (`background.js` lines 205-215):
plain substring containment tests, in order; the `drive.google.com` case and the
no-match case both yield the empty extension. -/
def googleExt (url : List Char) : List Char :=
  if containsSub "docs.google.com/document".data url then ".docx".data
  else if containsSub "docs.google.com/spreadsheets".data url then ".xlsx".data
  else if containsSub "docs.google.com/presentation".data url then ".pptx".data
  else []

/-- The name-part pipeline of `sanitizeFilename`: replace illegal characters with
underscore, collapse whitespace, trim `[\s._]` from both ends, truncate to 200,
fall back to `"unnamed_file"` when empty. -/
def sanitizeNamePart (n : List Char) : List Char :=
  if sanitizeCore repFile isTrimCh 200 n = [] then "unnamed_file".data
  else sanitizeCore repFile isTrimCh 200 n

/-- `background.js` line 192: `sanitizeFilename`. -/
def sanitizeFilename (filename url : List Char) : List Char :=
  match extSplit filename with
  | some (name, ext) => sanitizeNamePart name ++ ext
  | none => sanitizeNamePart filename ++ googleExt url

/-- Leftmost-match search of the JS patterns `LIT([^S]+)`: scan for the first
position where the literal `lit` occurs followed by at least one character not
satisfying `stopCh`; capture the maximal such run. -/
def matchAfter (lit : List Char) (stopCh : Char → Bool) : List Char → Option (List Char)
  | [] => none
  | c :: cs =>
    if lit.isPrefixOf (c :: cs) then
      let cap := ((c :: cs).drop lit.length).takeWhile (fun x => !stopCh x)
      if cap = [] then matchAfter lit stopCh cs else some cap
    else matchAfter lit stopCh cs

/-- Stop class `[^\/]` of the drive/docs id patterns. -/
def isSlash (c : Char) : Bool := c == '/'

/-- Stop class `[^&]` of the `open?id=` pattern. -/
def isAmp (c : Char) : Bool := c == '&'

/-- Literal of the pattern `/drive\.google\.com\/file\/d\/([^\/]+)/`. -/
def driveFileLit : List Char := "drive.google.com/file/d/".data

/-- Literal of the pattern `/drive\.google\.com\/open\?id=([^&]+)/`. -/
def driveOpenLit : List Char := "drive.google.com/open?id=".data

/-- Literal of the pattern `/docs\.google\.com\/document\/d\/([^\/]+)/`. -/
def docsDocumentLit : List Char := "docs.google.com/document/d/".data

/-- Literal of the pattern `/docs\.google\.com\/spreadsheets\/d\/([^\/]+)/`. -/
def docsSheetsLit : List Char := "docs.google.com/spreadsheets/d/".data

/-- Literal of the pattern `/docs\.google\.com\/presentation\/d\/([^\/]+)/`. -/
def docsSlidesLit : List Char := "docs.google.com/presentation/d/".data

/-- `background.js` line 119: `convertToDownloadUrl`, with the five regex cases
in source order and the pass-through default. -/
def convertToDownloadUrl (url : List Char) : List Char :=
  match matchAfter driveFileLit isSlash url with
  | some fileId => "https://drive.google.com/uc?export=download&id=".data ++ fileId
  | none =>
  match matchAfter driveOpenLit isAmp url with
  | some fileId => "https://drive.google.com/uc?export=download&id=".data ++ fileId
  | none =>
  match matchAfter docsDocumentLit isSlash url with
  | some docId => "https://docs.google.com/document/d/".data ++ docId ++ "/export?format=docx".data
  | none =>
  match matchAfter docsSheetsLit isSlash url with
  | some sheetId => "https://docs.google.com/spreadsheets/d/".data ++ sheetId ++ "/export?format=xlsx".data
  | none =>
  match matchAfter docsSlidesLit isSlash url with
  | some slidesId => "https://docs.google.com/presentation/d/".data ++ slidesId ++ "/export/pptx".data
  | none => url

/-- A JS `Date` restricted to the six local-time fields read by
`generateTimestamp`; `monthIndex` is the 0-based `getMonth()` value. -/
structure JsDate where
  year : Nat
  monthIndex : Nat
  day : Nat
  hours : Nat
  minutes : Nat
  seconds : Nat

/-- Decimal digits of a `Nat`, as JS `String(n)`. -/
def numStr (n : Nat) : List Char := (Nat.repr n).data

/-- JS `String(n).padStart(2, '0')`. -/
def padStart2 (s : List Char) : List Char :=
  List.replicate (2 - s.length) '0' ++ s

/-- `background.js` line 34: `generateTimestamp`, format `YYYY-MM-DD_HH-MM-SS`. -/
def generateTimestamp (now : JsDate) : List Char :=
  numStr now.year ++ '-' :: padStart2 (numStr (now.monthIndex + 1)) ++
    '-' :: padStart2 (numStr now.day) ++ '_' :: padStart2 (numStr now.hours) ++
    '-' :: padStart2 (numStr now.minutes) ++ '-' :: padStart2 (numStr now.seconds)

/-- The session folder computed by `handleDownloadRequest` (lines 53-55):
`sanitizeFolderName(assignmentName || "Classroom_Downloads") + "_" + timestamp`.
An absent or empty label is falsy in JS, hence replaced by the default before
sanitization. -/
def sessionFolderName (assignmentName : List Char) (now : JsDate) : List Char :=
  sanitizeFolderName
      (if assignmentName = [] then "Classroom_Downloads".data else assignmentName) ++
    '_' :: generateTimestamp now

/-- An attachment record `{url, filename}` produced by the scanner. -/
structure Attachment where
  url : List Char
  filename : List Char
deriving DecidableEq

/-- A per-file result `{url, success, downloadId?, error?}` of the batch loop. -/
structure DownloadResult where
  url : List Char
  success : Bool
  downloadId : Option Nat
  error : Option (List Char)
deriving DecidableEq

/-- `background.js` line 80: `downloadFile`.  The external Chrome download
manager is abstracted as an oracle `dm` taking the fetch URL and the
destination path and returning the download id, or the error message with
which the promise is rejected (covering both `chrome.runtime.lastError` and
an undefined download id). -/
def downloadFile (dm : List Char → List Char → Except (List Char) Nat)
    (a : Attachment) (folderName : List Char) : Except (List Char) Nat :=
  dm (convertToDownloadUrl a.url)
    ("Classroom/".data ++ folderName ++ '/' :: sanitizeFilename a.filename a.url)

/-- The `for (const attachment of attachments)` loop of `handleDownloadRequest`:
one result per attachment, in order; a rejection is caught and recorded, and
the loop continues. -/
def downloadLoop (dm : List Char → List Char → Except (List Char) Nat)
    (sessionFolder : List Char) : List Attachment → List DownloadResult
  | [] => []
  | a :: rest =>
    (match downloadFile dm a sessionFolder with
     | Except.ok did => ⟨a.url, true, some did, none⟩
     | Except.error e => ⟨a.url, false, none, some e⟩) :: downloadLoop dm sessionFolder rest

/-- `background.js` line 51: `handleDownloadRequest`. -/
def handleDownloadRequest (dm : List Char → List Char → Except (List Char) Nat)
    (attachments : List Attachment) (assignmentName : List Char) (now : JsDate) :
    List DownloadResult :=
  downloadLoop dm (sessionFolderName assignmentName now) attachments

/-- `content.js` line 14: the `VALID_EXTENSIONS` allow-list. -/
def VALID_EXTENSIONS : List (List Char) :=
  ["pptx".data, "ppt".data, "docx".data, "doc".data, "xlsx".data, "xls".data,
   "pdf".data, "txt".data, "zip".data, "rar".data, "7z".data,
   "jpg".data, "jpeg".data, "png".data, "gif".data, "bmp".data,
   "mp4".data, "mp3".data, "wav".data, "avi".data, "mov".data]

/-- ASCII lowering, the effect of JS `toLowerCase` on the characters relevant
here. -/
def lowerChar (c : Char) : Char :=
  if 'A' ≤ c && c ≤ 'Z' then Char.ofNat (c.toNat + 32) else c

/-- `content.js` line 99: `hasValidExtension` — case-insensitive suffix check
against the allow-list. -/
def hasValidExtension (filename : List Char) : Bool :=
  VALID_EXTENSIONS.any fun ext => ('.' :: ext).isSuffixOf (filename.map lowerChar)

/-- `content.js` line 87: `isNavigationLink`. -/
def isNavigationLink (url : List Char) : Bool :=
  if containsSub "/c/".data url && containsSub "/details".data url then false
  else if containsSub "/c/".data url && !containsSub "drive.google.com".data url &&
      !containsSub "docs.google.com".data url then true
  else false

/-- Snapshot of the fields of one anchor element that `scanForFiles` and
`extractFilename` read: the resolved `href`, the own text content, the title
text of the enclosing card (when both the card and its title element exist),
and the `title` / `aria-label` attributes (`[]` for a null or empty
attribute, which JS treats alike as falsy). -/
structure AnchorSnapshot where
  href : List Char
  text : List Char
  cardTitle : Option (List Char)
  titleAttr : List Char
  ariaLabel : List Char
deriving DecidableEq

/-- First line of a string: JS `split(/[\n\r]/)[0]`. -/
def firstLine (l : List Char) : List Char :=
  l.takeWhile fun c => !(c = '\n' || c = '\r')

/-- Case-insensitive prefix test (ASCII, as the JS `i` flag on these literals). -/
def startsWithCI : List Char → List Char → Bool
  | [], _ => true
  | _ :: _, [] => false
  | a :: as, b :: bs => lowerChar a == lowerChar b && startsWithCI as bs

/-- JS `replace(/LIT.*$/i, "")`: truncate at the leftmost case-insensitive
occurrence of the literal. -/
def cutAtCI (lit : List Char) : List Char → List Char
  | [] => []
  | c :: cs => if startsWithCI lit (c :: cs) then [] else c :: cutAtCI lit cs

/-- The alternatives of the extension-junk pattern
`(pptx?|docx?|xlsx?|pdf|txt|zip|rar|7z|jpe?g|png|gif|bmp|mp[34]|wav|avi|mov)`,
expanded in the regex engine's preference order. -/
def extAlts : List (List Char) :=
  ["pptx".data, "ppt".data, "docx".data, "doc".data, "xlsx".data, "xls".data,
   "pdf".data, "txt".data, "zip".data, "rar".data, "7z".data,
   "jpeg".data, "jpg".data, "png".data, "gif".data, "bmp".data,
   "mp3".data, "mp4".data, "wav".data, "avi".data, "mov".data]

/-- Length of the first alternative that matches case-insensitively at the
head of `cs`, if any. -/
def pickAlt (cs : List Char) : Option Nat :=
  extAlts.findSome? fun alt => if startsWithCI alt cs then some alt.length else none

/-- Scan for the leftmost dot followed by a known extension; on success return
the input truncated right after that extension (the lazy `^.+?\.(...)` match,
for the part of the string after its mandatory first character). -/
def junkGo : List Char → Option (List Char)
  | [] => none
  | c :: cs =>
    if c = '.' then
      match pickAlt cs with
      | some n => some ('.' :: cs.take n)
      | none => (junkGo cs).map fun r => c :: r
    else (junkGo cs).map fun r => c :: r

/-- JS `filename.match(/^(.+?\.(pptx?|...))/i)` with reassignment on success:
keep only the shortest prefix (with a nonempty name part) ending in a dot and
a known extension; leave the string unchanged when the pattern fails. -/
def junkCut (l : List Char) : List Char :=
  match l with
  | [] => []
  | c :: cs =>
    match junkGo cs with
    | some r => c :: r
    | none => l

/-- `content.js` line 107: `extractFilename`, the four-strategy fallback chain
over an anchor snapshot. -/
def extractFilename (a : AnchorSnapshot) : List Char :=
  let f1 := jsTrim (firstLine a.text)
  let f2 := jsTrim (cutAtCI "Google Slides".data (cutAtCI "Google Sheets".data
    (cutAtCI "Google Docs".data (cutAtCI "Microsoft Excel".data
      (cutAtCI "Microsoft Word".data (cutAtCI "Microsoft PowerPoint".data f1))))))
  let f3 := junkCut f2
  let g1 := if f3.length < 2 then
      match a.cardTitle with
      | some t => firstLine (jsTrim t)
      | none => f3
    else f3
  let g2 := if g1.length < 2 then
      jsTrim (firstLine (if a.titleAttr = [] then a.ariaLabel else a.titleAttr))
    else g1
  let g3 := jsTrim (collapseWS g2)
  if g3.length < 2 then "unknown_file".data else g3

/-- The `links.forEach` body of `scanForFiles` (`content.js` lines 59-79) with
the `seenUrls` set made explicit. -/
def scanGo (seen : List (List Char)) : List AnchorSnapshot → List Attachment
  | [] => []
  | a :: rest =>
    if a.href = [] ∨ a.href ∈ seen then scanGo seen rest
    else if isNavigationLink a.href then scanGo seen rest
    else if hasValidExtension (extractFilename a) then
      ⟨a.href, extractFilename a⟩ :: scanGo (a.href :: seen) rest
    else scanGo seen rest

/-- `content.js` line 52: `scanForFiles`.  The candidate discovery
`querySelectorAll('a[href*="drive.google.com"], a[href*="docs.google.com"]')`
is the substring filter on the anchors' hrefs. -/
def scanForFiles (anchors : List AnchorSnapshot) : List Attachment :=
  scanGo []
    (anchors.filter fun a =>
      containsSub "drive.google.com".data a.href ||
      containsSub "docs.google.com".data a.href)

/-- The JS pattern `LIT([^S]+)` matches somewhere in `l`: some occurrence of
the literal is followed by at least one character outside the stop class. -/
def regexHit (lit : List Char) (stopCh : Char → Bool) (l : List Char) : Prop :=
  ∃ s c t, l = s ++ lit ++ c :: t ∧ stopCh c = false

/-- No two adjacent whitespace characters. -/
def noTwoWS : List Char → Bool
  | c :: d :: rest => (!(isWS c && isWS d)) && noTwoWS (d :: rest)
  | _ => true

/-- Concrete anchor used to witness the scanner theorems. -/
def aW : AnchorSnapshot :=
  ⟨"https://drive.google.com/file/d/abc/view".data, "notes.pdf".data, none, [], []⟩

/-- Concrete three-element batch used to witness the batch-download theorem. -/
def attsW : List Attachment :=
  [⟨"u1".data, "a.pdf".data⟩, ⟨"u2".data, "b.pdf".data⟩, ⟨"u3".data, "c.pdf".data⟩]

/-- Concrete download-manager oracle that fails exactly on the second batch
element's URL. -/
def dmW (url : List Char) (_path : List Char) : Except (List Char) Nat :=
  if url = "u2".data then Except.error "boom".data else Except.ok 7

/-! ### List helper lemmas -/

theorem isPrefixOf_iff_pfx (l₁ l₂ : List Char) : l₁.isPrefixOf l₂ = true ↔ l₁ <+: l₂ := by
  induction l₁ generalizing l₂ with
  | nil =>
    simp only [List.isPrefixOf, true_iff]
    exact ⟨l₂, rfl⟩
  | cons a as ih =>
    cases l₂ with
    | nil => simp [List.isPrefixOf, List.prefix_nil]
    | cons b bs => simp [List.isPrefixOf, ih, List.cons_prefix_cons]

theorem isSuffixOf_iff_sfx (l₁ l₂ : List Char) : l₁.isSuffixOf l₂ = true ↔ l₁ <:+ l₂ := by
  rw [List.isSuffixOf, isPrefixOf_iff_pfx]
  constructor
  · rintro ⟨t, ht⟩
    refine ⟨t.reverse, ?_⟩
    have := congrArg List.reverse ht
    simpa using this
  · rintro ⟨t, rfl⟩
    exact ⟨t.reverse, by simp⟩

theorem containsSub_iff (sub l : List Char) : containsSub sub l = true ↔ sub <:+: l := by
  induction l with
  | nil =>
    constructor
    · intro h
      have : sub = [] := by simpa [containsSub, List.isEmpty_iff] using h
      exact ⟨[], [], by simp [this]⟩
    · rintro ⟨s, t, hst⟩
      have : sub = [] := (List.append_eq_nil.mp (List.append_eq_nil.mp hst).1).2
      simp [containsSub, this]
  | cons c cs ih =>
    constructor
    · intro h
      simp only [containsSub, Bool.or_eq_true] at h
      rcases h with h1 | h2
      · rcases (isPrefixOf_iff_pfx _ _).mp h1 with ⟨t, ht⟩
        exact ⟨[], t, by simpa using ht⟩
      · rcases ih.mp h2 with ⟨s, t, hst⟩
        exact ⟨c :: s, t, by simp [← hst]⟩
    · rintro ⟨s, t, hst⟩
      cases s with
      | nil =>
        have : sub.isPrefixOf (c :: cs) = true :=
          (isPrefixOf_iff_pfx _ _).mpr ⟨t, by simpa using hst⟩
        simp [containsSub, this]
      | cons s0 s' =>
        have hcs : sub <:+: cs := by
          refine ⟨s', t, ?_⟩
          have h2 : s0 :: (s' ++ sub ++ t) = c :: cs := by simpa using hst
          injection h2 with _ h3
        simp [containsSub, ih.mpr hcs]

theorem containsSub_eq_false_iff (sub l : List Char) :
    containsSub sub l = false ↔ ¬ sub <:+: l := by
  rw [← containsSub_iff]
  cases containsSub sub l <;> simp

theorem takeWhile_all (p : Char → Bool) (l : List Char) (h : ∀ x ∈ l, p x = true) :
    l.takeWhile p = l := by
  induction l with
  | nil => rfl
  | cons a t ih =>
    simp [List.takeWhile_cons, h a (by simp), ih fun x hx => h x (by simp [hx])]

theorem takeWhile_until (p : Char → Bool) (l₁ : List Char) (c : Char) (l₂ : List Char)
    (h1 : ∀ x ∈ l₁, p x = true) (h2 : p c = false) :
    (l₁ ++ c :: l₂).takeWhile p = l₁ := by
  induction l₁ with
  | nil => simp [List.takeWhile_cons, h2]
  | cons a t ih =>
    simp [List.takeWhile_cons, h1 a (by simp),
      ih fun x hx => h1 x (by simp [hx])]

theorem dropWhile_until (p : Char → Bool) (l₁ : List Char) (c : Char) (l₂ : List Char)
    (h1 : ∀ x ∈ l₁, p x = true) (h2 : p c = false) :
    (l₁ ++ c :: l₂).dropWhile p = c :: l₂ := by
  induction l₁ with
  | nil => simp [List.dropWhile_cons, h2]
  | cons a t ih =>
    simp only [List.cons_append, List.dropWhile_cons, h1 a (by simp), if_pos]
    exact ih fun x hx => h1 x (by simp [hx])

theorem dropWhile_head_not (p : Char → Bool) :
    ∀ (l : List Char) (c : Char) (t : List Char), l.dropWhile p = c :: t → p c = false := by
  intro l
  induction l with
  | nil => intro c t h; cases h
  | cons a l ih =>
    intro c t h
    rw [List.dropWhile_cons] at h
    by_cases ha : p a
    · rw [if_pos ha] at h
      exact ih c t h
    · rw [if_neg ha] at h
      injection h with h1 _
      rw [← h1]
      exact Bool.of_not_eq_true ha

theorem dropWhile_eq_self_of (p : Char → Bool) (l : List Char)
    (h : ∀ c t, l = c :: t → p c = false) : l.dropWhile p = l := by
  cases l with
  | nil => rfl
  | cons c t => simp [List.dropWhile_cons, h c t rfl]

theorem takeWhile_cons_head (p : Char → Bool) (l : List Char) (d : Char) (t' : List Char)
    (h : l.takeWhile p = d :: t') : p d = true ∧ ∃ t2, l = d :: t2 := by
  cases l with
  | nil => cases h
  | cons a l2 =>
    rw [List.takeWhile_cons] at h
    by_cases ha : p a
    · rw [if_pos ha] at h
      injection h with h1 _
      exact ⟨h1 ▸ ha, l2, h1 ▸ rfl⟩
    · rw [if_neg ha] at h
      cases h

/-! ### Leftmost-match lemmas for `matchAfter` -/

theorem matchAfter_skip_head (lit : List Char) (stopCh : Char → Bool) (c : Char)
    (cs : List Char) (hne : lit ≠ []) (hhd : lit.head? ≠ some c) :
    matchAfter lit stopCh (c :: cs) = matchAfter lit stopCh cs := by
  cases lit with
  | nil => exact absurd rfl hne
  | cons a as =>
    have hac : (a == c) = false := by
      simp only [List.head?] at hhd
      simp only [beq_eq_false_iff_ne, ne_eq]
      intro h
      exact hhd (by rw [h])
    simp [matchAfter, List.isPrefixOf, hac]

theorem matchAfter_skip_all (lit : List Char) (stopCh : Char → Bool)
    (pre rest : List Char) (hne : lit ≠ [])
    (hpre : ∀ c ∈ pre, lit.head? ≠ some c) :
    matchAfter lit stopCh (pre ++ rest) = matchAfter lit stopCh rest := by
  induction pre with
  | nil => rfl
  | cons c p ih =>
    rw [List.cons_append, matchAfter_skip_head lit stopCh c _ hne (hpre c (by simp))]
    exact ih fun d hd => hpre d (by simp [hd])

theorem matchAfter_at_self_sep (lit : List Char) (stopCh : Char → Bool)
    (id : List Char) (sep : Char) (rest : List Char) (hne : lit ≠ [])
    (hid : id ≠ []) (hok : ∀ c ∈ id, stopCh c = false) (hsep : stopCh sep = true) :
    matchAfter lit stopCh (lit ++ (id ++ sep :: rest)) = some id := by
  cases lit with
  | nil => exact absurd rfl hne
  | cons a as =>
    have htw : (id ++ sep :: rest).takeWhile (fun x => !stopCh x) = id :=
      takeWhile_until _ _ _ _ (fun x hx => by simp [hok x hx]) (by simp [hsep])
    have hp : (a :: as).isPrefixOf (a :: (as ++ (id ++ sep :: rest))) = true :=
      (isPrefixOf_iff_pfx _ _).mpr ⟨id ++ sep :: rest, by simp⟩
    rw [List.cons_append]
    simp only [matchAfter]
    rw [if_pos hp]
    simp only [List.length_cons, List.drop_succ_cons, List.drop_left]
    rw [htw, if_neg hid]

theorem matchAfter_at_self_end (lit : List Char) (stopCh : Char → Bool)
    (id : List Char) (hne : lit ≠ []) (hid : id ≠ [])
    (hok : ∀ c ∈ id, stopCh c = false) :
    matchAfter lit stopCh (lit ++ id) = some id := by
  cases lit with
  | nil => exact absurd rfl hne
  | cons a as =>
    have htw : id.takeWhile (fun x => !stopCh x) = id :=
      takeWhile_all _ _ fun x hx => by simp [hok x hx]
    have hp : (a :: as).isPrefixOf (a :: (as ++ id)) = true :=
      (isPrefixOf_iff_pfx _ _).mpr ⟨id, by simp⟩
    rw [List.cons_append]
    simp only [matchAfter]
    rw [if_pos hp]
    simp only [List.length_cons, List.drop_succ_cons, List.drop_left]
    rw [htw, if_neg hid]

theorem regexHit_cons (lit : List Char) (stopCh : Char → Bool) (c : Char)
    (cs : List Char) (h : regexHit lit stopCh cs) : regexHit lit stopCh (c :: cs) := by
  rcases h with ⟨s, d, t, heq, hd⟩
  exact ⟨c :: s, d, t, by simp [heq], hd⟩

theorem matchAfter_none_of_no_hit (lit : List Char) (stopCh : Char → Bool)
    (l : List Char) (h : ¬ regexHit lit stopCh l) : matchAfter lit stopCh l = none := by
  induction l with
  | nil => rfl
  | cons c cs ih =>
    by_cases hp : lit.isPrefixOf (c :: cs) = true
    · rcases (isPrefixOf_iff_pfx _ _).mp hp with ⟨tail, htail⟩
      have hcap : tail.takeWhile (fun x => !stopCh x) = [] := by
        cases ht : tail.takeWhile (fun x => !stopCh x) with
        | nil => rfl
        | cons d t' =>
          exfalso
          rcases takeWhile_cons_head _ _ _ _ ht with ⟨hd, t2, ht2⟩
          exact h ⟨[], d, t2, by simp [← htail, ht2], by simpa using hd⟩
      have hstep : matchAfter lit stopCh (c :: cs) = matchAfter lit stopCh cs := by
        rw [matchAfter, if_pos hp]
        have : ((c :: cs).drop lit.length) = tail := by
          rw [← htail, List.drop_left]
        rw [this, hcap, if_pos rfl]
      rw [hstep]
      exact ih fun hh => h (regexHit_cons _ _ _ _ hh)
    · rw [matchAfter, if_neg hp]
      exact ih fun hh => h (regexHit_cons _ _ _ _ hh)

theorem matchAfter_ne_none_of_hit (lit : List Char) (stopCh : Char → Bool)
    (l : List Char) (h : regexHit lit stopCh l) : matchAfter lit stopCh l ≠ none := by
  rcases h with ⟨s, c0, t, heq, hc0⟩
  subst heq
  induction s with
  | nil =>
    cases lit with
    | nil =>
      simp only [List.nil_append, List.append_nil, matchAfter]
      rw [if_pos (by simp [List.isPrefixOf])]
      simp only [List.length_nil, List.drop_zero, List.takeWhile_cons, hc0]
      simp
    | cons a as =>
      have hp : (a :: as).isPrefixOf (a :: (as ++ c0 :: t)) = true :=
        (isPrefixOf_iff_pfx _ _).mpr ⟨c0 :: t, by simp⟩
      rw [List.nil_append, List.cons_append]
      simp only [matchAfter]
      rw [if_pos hp]
      simp only [List.length_cons, List.drop_succ_cons, List.drop_left,
        List.takeWhile_cons, hc0]
      simp
  | cons p s' ih =>
    have harg : (p :: s') ++ lit ++ c0 :: t = p :: (s' ++ lit ++ c0 :: t) := by simp
    rw [harg]
    simp only [matchAfter]
    by_cases hp : lit.isPrefixOf (p :: (s' ++ lit ++ c0 :: t)) = true
    · rw [if_pos hp]
      by_cases hcap : ((p :: (s' ++ lit ++ c0 :: t)).drop lit.length).takeWhile
          (fun x => !stopCh x) = []
      · rw [if_pos hcap]
        exact ih
      · rw [if_neg hcap]
        simp
    · rw [if_neg hp]
      exact ih

theorem no_hit_of_matchAfter_none (lit : List Char) (stopCh : Char → Bool)
    (l : List Char) (h : matchAfter lit stopCh l = none) : ¬ regexHit lit stopCh l :=
  fun hh => matchAfter_ne_none_of_hit lit stopCh l hh h

/-- Claim C1: `convertToDownloadUrl` implements the recognized-shape case
analysis with first-match-wins priority — a drive file-view URL maps to the
direct-export URL with the same id; an open-link URL maps to the same
direct-export URL; document / spreadsheet / presentation editor URLs map to
their export endpoints with fixed formats docx / xlsx / pptx; a URL on which
none of the five patterns matches is returned unchanged. -/
theorem convertToDownloadUrl_cases :
    (∀ id rest : List Char, id ≠ [] → (∀ c ∈ id, c ≠ '/') →
      convertToDownloadUrl ("https://drive.google.com/file/d/".data ++ id ++ '/' :: rest) =
        "https://drive.google.com/uc?export=download&id=".data ++ id) ∧
    (∀ id : List Char, id ≠ [] → (∀ c ∈ id, c ≠ '&') →
      ¬ regexHit driveFileLit isSlash ("https://drive.google.com/open?id=".data ++ id) →
      convertToDownloadUrl ("https://drive.google.com/open?id=".data ++ id) =
        "https://drive.google.com/uc?export=download&id=".data ++ id) ∧
    (∀ id rest : List Char, id ≠ [] → (∀ c ∈ id, c ≠ '/') →
      ¬ regexHit driveFileLit isSlash
          ("https://docs.google.com/document/d/".data ++ id ++ '/' :: rest) →
      ¬ regexHit driveOpenLit isAmp
          ("https://docs.google.com/document/d/".data ++ id ++ '/' :: rest) →
      convertToDownloadUrl ("https://docs.google.com/document/d/".data ++ id ++ '/' :: rest) =
        "https://docs.google.com/document/d/".data ++ id ++ "/export?format=docx".data) ∧
    (∀ id rest : List Char, id ≠ [] → (∀ c ∈ id, c ≠ '/') →
      ¬ regexHit driveFileLit isSlash
          ("https://docs.google.com/spreadsheets/d/".data ++ id ++ '/' :: rest) →
      ¬ regexHit driveOpenLit isAmp
          ("https://docs.google.com/spreadsheets/d/".data ++ id ++ '/' :: rest) →
      ¬ regexHit docsDocumentLit isSlash
          ("https://docs.google.com/spreadsheets/d/".data ++ id ++ '/' :: rest) →
      convertToDownloadUrl ("https://docs.google.com/spreadsheets/d/".data ++ id ++ '/' :: rest) =
        "https://docs.google.com/spreadsheets/d/".data ++ id ++ "/export?format=xlsx".data) ∧
    (∀ id rest : List Char, id ≠ [] → (∀ c ∈ id, c ≠ '/') →
      ¬ regexHit driveFileLit isSlash
          ("https://docs.google.com/presentation/d/".data ++ id ++ '/' :: rest) →
      ¬ regexHit driveOpenLit isAmp
          ("https://docs.google.com/presentation/d/".data ++ id ++ '/' :: rest) →
      ¬ regexHit docsDocumentLit isSlash
          ("https://docs.google.com/presentation/d/".data ++ id ++ '/' :: rest) →
      ¬ regexHit docsSheetsLit isSlash
          ("https://docs.google.com/presentation/d/".data ++ id ++ '/' :: rest) →
      convertToDownloadUrl ("https://docs.google.com/presentation/d/".data ++ id ++ '/' :: rest) =
        "https://docs.google.com/presentation/d/".data ++ id ++ "/export/pptx".data) ∧
    (∀ url : List Char,
      ¬ regexHit driveFileLit isSlash url → ¬ regexHit driveOpenLit isAmp url →
      ¬ regexHit docsDocumentLit isSlash url → ¬ regexHit docsSheetsLit isSlash url →
      ¬ regexHit docsSlidesLit isSlash url →
      convertToDownloadUrl url = url) := by
  refine ⟨?_, ?_, ?_, ?_, ?_, ?_⟩
  · intro id rest hid hok
    have hok' : ∀ c ∈ id, isSlash c = false := fun c hc => by
      simp only [isSlash, beq_eq_false_iff_ne, ne_eq]
      exact hok c hc
    have h1 : matchAfter driveFileLit isSlash
        ("https://drive.google.com/file/d/".data ++ id ++ '/' :: rest) = some id := by
      have hsplit : "https://drive.google.com/file/d/".data ++ id ++ '/' :: rest =
          "https://".data ++ (driveFileLit ++ (id ++ '/' :: rest)) := by
        rw [show "https://drive.google.com/file/d/".data =
          "https://".data ++ driveFileLit from by decide]
        simp [List.append_assoc]
      rw [hsplit, matchAfter_skip_all _ _ _ _ (by decide) (by decide),
        matchAfter_at_self_sep _ _ _ _ _ (by decide) hid hok' (by decide)]
    rw [convertToDownloadUrl, h1]
  · intro id hid hok hno1
    have hok' : ∀ c ∈ id, isAmp c = false := fun c hc => by
      simp only [isAmp, beq_eq_false_iff_ne, ne_eq]
      exact hok c hc
    have h1 := matchAfter_none_of_no_hit _ _ _ hno1
    have h2 : matchAfter driveOpenLit isAmp
        ("https://drive.google.com/open?id=".data ++ id) = some id := by
      have hsplit : "https://drive.google.com/open?id=".data ++ id =
          "https://".data ++ (driveOpenLit ++ id) := by
        rw [show "https://drive.google.com/open?id=".data =
          "https://".data ++ driveOpenLit from by decide]
        simp [List.append_assoc]
      rw [hsplit, matchAfter_skip_all _ _ _ _ (by decide) (by decide),
        matchAfter_at_self_end _ _ _ (by decide) hid hok']
    rw [convertToDownloadUrl, h1, h2]
  · intro id rest hid hok hno1 hno2
    have hok' : ∀ c ∈ id, isSlash c = false := fun c hc => by
      simp only [isSlash, beq_eq_false_iff_ne, ne_eq]
      exact hok c hc
    have h1 := matchAfter_none_of_no_hit _ _ _ hno1
    have h2 := matchAfter_none_of_no_hit _ _ _ hno2
    have h3 : matchAfter docsDocumentLit isSlash
        ("https://docs.google.com/document/d/".data ++ id ++ '/' :: rest) = some id := by
      have hsplit : "https://docs.google.com/document/d/".data ++ id ++ '/' :: rest =
          "https://".data ++ (docsDocumentLit ++ (id ++ '/' :: rest)) := by
        rw [show "https://docs.google.com/document/d/".data =
          "https://".data ++ docsDocumentLit from by decide]
        simp [List.append_assoc]
      rw [hsplit, matchAfter_skip_all _ _ _ _ (by decide) (by decide),
        matchAfter_at_self_sep _ _ _ _ _ (by decide) hid hok' (by decide)]
    rw [convertToDownloadUrl, h1, h2, h3]
  · intro id rest hid hok hno1 hno2 hno3
    have hok' : ∀ c ∈ id, isSlash c = false := fun c hc => by
      simp only [isSlash, beq_eq_false_iff_ne, ne_eq]
      exact hok c hc
    have h1 := matchAfter_none_of_no_hit _ _ _ hno1
    have h2 := matchAfter_none_of_no_hit _ _ _ hno2
    have h3 := matchAfter_none_of_no_hit _ _ _ hno3
    have h4 : matchAfter docsSheetsLit isSlash
        ("https://docs.google.com/spreadsheets/d/".data ++ id ++ '/' :: rest) = some id := by
      have hsplit : "https://docs.google.com/spreadsheets/d/".data ++ id ++ '/' :: rest =
          "https://".data ++ (docsSheetsLit ++ (id ++ '/' :: rest)) := by
        rw [show "https://docs.google.com/spreadsheets/d/".data =
          "https://".data ++ docsSheetsLit from by decide]
        simp [List.append_assoc]
      rw [hsplit, matchAfter_skip_all _ _ _ _ (by decide) (by decide),
        matchAfter_at_self_sep _ _ _ _ _ (by decide) hid hok' (by decide)]
    rw [convertToDownloadUrl, h1, h2, h3, h4]
  · intro id rest hid hok hno1 hno2 hno3 hno4
    have hok' : ∀ c ∈ id, isSlash c = false := fun c hc => by
      simp only [isSlash, beq_eq_false_iff_ne, ne_eq]
      exact hok c hc
    have h1 := matchAfter_none_of_no_hit _ _ _ hno1
    have h2 := matchAfter_none_of_no_hit _ _ _ hno2
    have h3 := matchAfter_none_of_no_hit _ _ _ hno3
    have h4 := matchAfter_none_of_no_hit _ _ _ hno4
    have h5 : matchAfter docsSlidesLit isSlash
        ("https://docs.google.com/presentation/d/".data ++ id ++ '/' :: rest) = some id := by
      have hsplit : "https://docs.google.com/presentation/d/".data ++ id ++ '/' :: rest =
          "https://".data ++ (docsSlidesLit ++ (id ++ '/' :: rest)) := by
        rw [show "https://docs.google.com/presentation/d/".data =
          "https://".data ++ docsSlidesLit from by decide]
        simp [List.append_assoc]
      rw [hsplit, matchAfter_skip_all _ _ _ _ (by decide) (by decide),
        matchAfter_at_self_sep _ _ _ _ _ (by decide) hid hok' (by decide)]
    rw [convertToDownloadUrl, h1, h2, h3, h4, h5]
  · intro url hno1 hno2 hno3 hno4 hno5
    rw [convertToDownloadUrl, matchAfter_none_of_no_hit _ _ _ hno1,
      matchAfter_none_of_no_hit _ _ _ hno2, matchAfter_none_of_no_hit _ _ _ hno3,
      matchAfter_none_of_no_hit _ _ _ hno4, matchAfter_none_of_no_hit _ _ _ hno5]

/-- Witness for C1: the three shapes of the spec's examples, evaluated at
concrete inputs through `convertToDownloadUrl_cases`. -/
theorem convertToDownloadUrl_cases_witness :
    convertToDownloadUrl
        ("https://docs.google.com/spreadsheets/d/".data ++ "XYZ".data ++ '/' :: "edit".data) =
      "https://docs.google.com/spreadsheets/d/".data ++ "XYZ".data ++ "/export?format=xlsx".data ∧
    convertToDownloadUrl
        ("https://drive.google.com/file/d/".data ++ "ABC123".data ++ '/' :: "view".data) =
      "https://drive.google.com/uc?export=download&id=".data ++ "ABC123".data ∧
    convertToDownloadUrl "https://example.com/syllabus.pdf".data =
      "https://example.com/syllabus.pdf".data := by
  refine ⟨?_, ?_, ?_⟩
  · exact convertToDownloadUrl_cases.2.2.2.1 "XYZ".data "edit".data (by decide) (by decide)
      (no_hit_of_matchAfter_none _ _ _ (by decide))
      (no_hit_of_matchAfter_none _ _ _ (by decide))
      (no_hit_of_matchAfter_none _ _ _ (by decide))
  · exact convertToDownloadUrl_cases.1 "ABC123".data "view".data (by decide) (by decide)
  · exact convertToDownloadUrl_cases.2.2.2.2.2 "https://example.com/syllabus.pdf".data
      (no_hit_of_matchAfter_none _ _ _ (by decide))
      (no_hit_of_matchAfter_none _ _ _ (by decide))
      (no_hit_of_matchAfter_none _ _ _ (by decide))
      (no_hit_of_matchAfter_none _ _ _ (by decide))
      (no_hit_of_matchAfter_none _ _ _ (by decide))

/-- Counterexample for claim C2: `sanitizeFilename "My File?.pdf"` is not
`"My File_.pdf"` — after `?` becomes `_`, the `[\s._]+$` trim removes the
trailing underscore of the name part. -/
theorem sanitizeFilename_example_cex :
    sanitizeFilename "My File?.pdf".data [] ≠ "My File_.pdf".data := by decide

/-- Claim C2, amended: `sanitizeFilename "My File?.pdf"` is `"My File.pdf"` —
the illegal `?` is replaced by an underscore, that underscore is then trimmed
as a trailing `[\s._]` character of the name part, and the `.pdf` extension is
preserved. -/
theorem sanitizeFilename_example_amended :
    sanitizeFilename "My File?.pdf".data [] = "My File.pdf".data := by decide

/-- Claim C9: for the label `"Homework #1: A/B"` and any fixed clock, the
session folder is exactly `"Homework #1 A B_"` followed by the zero-padded
timestamp `YYYY-MM-DD_HH-MM-SS` (colon and slash replaced, double spaces
collapsed). -/
theorem sessionFolder_homework_example (now : JsDate) :
    sessionFolderName "Homework #1: A/B".data now =
      "Homework #1 A B_".data ++
        (numStr now.year ++ '-' :: padStart2 (numStr (now.monthIndex + 1)) ++
          '-' :: padStart2 (numStr now.day) ++ '_' :: padStart2 (numStr now.hours) ++
          '-' :: padStart2 (numStr now.minutes) ++ '-' :: padStart2 (numStr now.seconds)) := by
  have h1 : sanitizeFolderName
      (if ("Homework #1: A/B".data : List Char) = [] then "Classroom_Downloads".data
       else "Homework #1: A/B".data) = "Homework #1 A B".data := by decide
  have h2 : ("Homework #1 A B_".data : List Char) = "Homework #1 A B".data ++ ['_'] := by decide
  rw [sessionFolderName, h1, generateTimestamp, h2, List.append_assoc]
  rfl

/-- Claim C10: the fallback folder prefix is `"Classroom_Downloads"` for an
absent/empty label (the `||` default, sanitized unchanged), but
`"Classroom_Download"` for a non-empty label whose sanitization comes out
empty (the sanitizer's own fallback constant). -/
theorem sessionFolder_fallback_prefixes :
    (∀ now : JsDate, sessionFolderName [] now =
      "Classroom_Downloads".data ++ '_' :: generateTimestamp now) ∧
    (∀ (label : List Char) (now : JsDate), label ≠ [] →
      sanitizeCore repFolder isWS 100 label = [] →
      sessionFolderName label now =
        "Classroom_Download".data ++ '_' :: generateTimestamp now) := by
  constructor
  · intro now
    rw [sessionFolderName, if_pos rfl,
      show sanitizeFolderName "Classroom_Downloads".data = "Classroom_Downloads".data
        from by decide]
  · intro label now h1 h2
    rw [sessionFolderName, if_neg h1, sanitizeFolderName, if_neg h1, if_pos h2]

/-- Witness for C10: a label of only illegal characters gets the
`"Classroom_Download"` prefix. -/
theorem sessionFolder_fallback_witness :
    sessionFolderName "???".data ⟨2026, 0, 1, 2, 3, 4⟩ =
      "Classroom_Download".data ++ '_' :: generateTimestamp ⟨2026, 0, 1, 2, 3, 4⟩ :=
  sessionFolder_fallback_prefixes.2 "???".data ⟨2026, 0, 1, 2, 3, 4⟩ (by decide) (by decide)

/-- Claim C7: `isNavigationLink` is true exactly for URLs containing `"/c/"`,
not containing `"/details"`, and containing neither hosting-domain substring;
and the `"/details"` carve-out takes priority — any URL containing both
`"/c/"` and `"/details"` is classified non-navigation, hosting domains or
not. -/
theorem isNavigationLink_spec (url : List Char) :
    (isNavigationLink url = true ↔
      ("/c/".data <:+: url ∧ ¬ "/details".data <:+: url ∧
       ¬ "drive.google.com".data <:+: url ∧ ¬ "docs.google.com".data <:+: url)) ∧
    ("/c/".data <:+: url → "/details".data <:+: url → isNavigationLink url = false) := by
  rw [← containsSub_iff "/c/".data url, ← containsSub_iff "/details".data url,
    ← containsSub_iff "drive.google.com".data url,
    ← containsSub_iff "docs.google.com".data url, isNavigationLink]
  cases containsSub "/c/".data url <;> cases containsSub "/details".data url <;>
    cases containsSub "drive.google.com".data url <;>
    cases containsSub "docs.google.com".data url <;> simp

/-- Witness for C7's carve-out clause: a URL with `"/c/"` and `"/details"` but
no hosting domain is kept. -/
theorem isNavigationLink_spec_witness :
    isNavigationLink "https://classroom.google.com/c/XYZ/details".data = false :=
  (isNavigationLink_spec "https://classroom.google.com/c/XYZ/details".data).2
    ((containsSub_iff _ _).mp (by decide)) ((containsSub_iff _ _).mp (by decide))

/-- Counterexample for claim C8: the URL `"docs.google.com/document"` matches
none of the resolver's five rewrite patterns (no `/d/ID` segment), so per the
claim the appended extension should be empty; yet `sanitizeFilename` appends
`".docx"`, because the code tests substring containment, not the rewrite
pattern. -/
theorem sanitizeFilename_extension_cex :
    matchAfter driveFileLit isSlash "docs.google.com/document".data = none ∧
    matchAfter driveOpenLit isAmp "docs.google.com/document".data = none ∧
    matchAfter docsDocumentLit isSlash "docs.google.com/document".data = none ∧
    matchAfter docsSheetsLit isSlash "docs.google.com/document".data = none ∧
    matchAfter docsSlidesLit isSlash "docs.google.com/document".data = none ∧
    convertToDownloadUrl "docs.google.com/document".data = "docs.google.com/document".data ∧
    sanitizeFilename "f".data "docs.google.com/document".data = "f.docx".data := by decide

/-- Claim C8, amended: for a filename without a recognized extension, the
appended extension is `".docx"` / `".xlsx"` / `".pptx"` exactly when the url
contains the substring `"docs.google.com/document"` / (else)
`"docs.google.com/spreadsheets"` / (else) `"docs.google.com/presentation"`,
tested by containment in that priority order, and empty otherwise (in
particular for all `drive.google.com` URLs); containment does not require the
url to match the resolver's rewrite pattern. -/
theorem sanitizeFilename_url_extension (fname url : List Char)
    (h : extSplit fname = none) :
    (("docs.google.com/document".data <:+: url) →
      sanitizeFilename fname url = sanitizeNamePart fname ++ ".docx".data) ∧
    (¬ "docs.google.com/document".data <:+: url →
      "docs.google.com/spreadsheets".data <:+: url →
      sanitizeFilename fname url = sanitizeNamePart fname ++ ".xlsx".data) ∧
    (¬ "docs.google.com/document".data <:+: url →
      ¬ "docs.google.com/spreadsheets".data <:+: url →
      "docs.google.com/presentation".data <:+: url →
      sanitizeFilename fname url = sanitizeNamePart fname ++ ".pptx".data) ∧
    (¬ "docs.google.com/document".data <:+: url →
      ¬ "docs.google.com/spreadsheets".data <:+: url →
      ¬ "docs.google.com/presentation".data <:+: url →
      sanitizeFilename fname url = sanitizeNamePart fname) := by
  have hbase : sanitizeFilename fname url = sanitizeNamePart fname ++ googleExt url := by
    simp only [sanitizeFilename, h]
  refine ⟨?_, ?_, ?_, ?_⟩
  · intro h1
    rw [hbase, googleExt, if_pos ((containsSub_iff _ _).mpr h1)]
  · intro h1 h2
    rw [hbase, googleExt, if_neg (fun hh => h1 ((containsSub_iff _ _).mp hh)),
      if_pos ((containsSub_iff _ _).mpr h2)]
  · intro h1 h2 h3
    rw [hbase, googleExt, if_neg (fun hh => h1 ((containsSub_iff _ _).mp hh)),
      if_neg (fun hh => h2 ((containsSub_iff _ _).mp hh)),
      if_pos ((containsSub_iff _ _).mpr h3)]
  · intro h1 h2 h3
    rw [hbase, googleExt, if_neg (fun hh => h1 ((containsSub_iff _ _).mp hh)),
      if_neg (fun hh => h2 ((containsSub_iff _ _).mp hh)),
      if_neg (fun hh => h3 ((containsSub_iff _ _).mp hh)), List.append_nil]

/-- Witness for the amended C8: a spreadsheets-containing url gets `".xlsx"`
appended to an extension-less filename. -/
theorem sanitizeFilename_url_extension_witness :
    sanitizeFilename "report".data "docs.google.com/spreadsheets".data =
      sanitizeNamePart "report".data ++ ".xlsx".data :=
  (sanitizeFilename_url_extension "report".data "docs.google.com/spreadsheets".data
      (by decide)).2.1
    ((containsSub_eq_false_iff _ _).mp (by decide))
    ((containsSub_iff _ _).mp (by decide))

/-- Claim C4: the batch loop returns exactly one result per input record, in
input order; index `i`'s result is `{url, success := true, downloadId}` when
that record's download-manager call succeeds and `{url, success := false,
error}` when it fails, and one failure never prevents the remaining records
from being attempted (the loop result at every other index is unaffected). -/
theorem handleDownloadRequest_results (dm : List Char → List Char → Except (List Char) Nat)
    (sf : List Char) (atts : List Attachment) :
    (downloadLoop dm sf atts).length = atts.length ∧
    (∀ (label : List Char) (now : JsDate),
      handleDownloadRequest dm atts label now =
        downloadLoop dm (sessionFolderName label now) atts) ∧
    (∀ (i : Nat) (a : Attachment) (n : Nat), atts[i]? = some a →
      downloadFile dm a sf = Except.ok n →
      (downloadLoop dm sf atts)[i]? = some (⟨a.url, true, some n, none⟩ : DownloadResult)) ∧
    (∀ (i : Nat) (a : Attachment) (e : List Char), atts[i]? = some a →
      downloadFile dm a sf = Except.error e →
      (downloadLoop dm sf atts)[i]? = some (⟨a.url, false, none, some e⟩ : DownloadResult)) := by
  refine ⟨?_, fun _ _ => rfl, ?_, ?_⟩
  · induction atts with
    | nil => rfl
    | cons a rest ih => simp only [downloadLoop, List.length_cons, ih]
  · induction atts with
    | nil => intro i a n h; cases i <;> cases h
    | cons a0 rest ih =>
      intro i a n hget hok
      cases i with
      | zero =>
        simp only [List.getElem?_cons_zero, Option.some_inj] at hget
        subst hget
        simp only [downloadLoop, hok, List.getElem?_cons_zero]
      | succ j =>
        simp only [List.getElem?_cons_succ] at hget
        simp only [downloadLoop, List.getElem?_cons_succ]
        exact ih j a n hget hok
  · induction atts with
    | nil => intro i a e h; cases i <;> cases h
    | cons a0 rest ih =>
      intro i a e hget herr
      cases i with
      | zero =>
        simp only [List.getElem?_cons_zero, Option.some_inj] at hget
        subst hget
        simp only [downloadLoop, herr, List.getElem?_cons_zero]
      | succ j =>
        simp only [List.getElem?_cons_succ] at hget
        simp only [downloadLoop, List.getElem?_cons_succ]
        exact ih j a e hget herr

/-- Witness for C4: a concrete batch of three where the manager call fails on
the second record only — three results in order, index 1 failed, indices 0
and 2 succeeded. -/
theorem handleDownloadRequest_results_witness :
    (downloadLoop dmW "F".data attsW).length = 3 ∧
    (downloadLoop dmW "F".data attsW)[0]? = some ⟨"u1".data, true, some 7, none⟩ ∧
    (downloadLoop dmW "F".data attsW)[1]? = some ⟨"u2".data, false, none, some "boom".data⟩ ∧
    (downloadLoop dmW "F".data attsW)[2]? = some ⟨"u3".data, true, some 7, none⟩ := by
  refine ⟨?_, ?_, ?_, ?_⟩
  · exact (handleDownloadRequest_results dmW "F".data attsW).1.trans (by decide)
  · exact (handleDownloadRequest_results dmW "F".data attsW).2.2.1 0
      ⟨"u1".data, "a.pdf".data⟩ 7 (by decide) (by rfl)
  · exact (handleDownloadRequest_results dmW "F".data attsW).2.2.2 1
      ⟨"u2".data, "b.pdf".data⟩ "boom".data (by decide) (by rfl)
  · exact (handleDownloadRequest_results dmW "F".data attsW).2.2.1 2
      ⟨"u3".data, "c.pdf".data⟩ 7 (by decide) (by rfl)

/-! ### Fixpoint lemmas for the sanitizer pipeline -/

theorem noTwoWS_tail (c : Char) (l : List Char) (h : noTwoWS (c :: l) = true) :
    noTwoWS l = true := by
  cases l with
  | nil => rfl
  | cons d t =>
    simp only [noTwoWS, Bool.and_eq_true] at h
    exact h.2

theorem noTwoWS_cons_of (c : Char) (l : List Char) (hl : noTwoWS l = true)
    (hh : ∀ d t, l = d :: t → (isWS c && isWS d) = false) : noTwoWS (c :: l) = true := by
  cases l with
  | nil => rfl
  | cons d t =>
    simp only [noTwoWS, Bool.and_eq_true]
    exact ⟨by simp [hh d t rfl], hl⟩

theorem noTwoWS_append_left (l₁ l₂ : List Char) (h : noTwoWS (l₁ ++ l₂) = true) :
    noTwoWS l₁ = true := by
  induction l₁ with
  | nil => rfl
  | cons a t ih =>
    cases t with
    | nil => rfl
    | cons b t2 =>
      simp only [List.cons_append, noTwoWS, Bool.and_eq_true] at h ⊢
      exact ⟨h.1, by simpa using ih (by simpa using h.2)⟩

theorem noTwoWS_append_right (l₁ l₂ : List Char) (h : noTwoWS (l₁ ++ l₂) = true) :
    noTwoWS l₂ = true := by
  induction l₁ with
  | nil => simpa using h
  | cons a t ih =>
    exact ih (noTwoWS_tail a (t ++ l₂) (by simpa using h))

theorem mem_collapseWS (l : List Char) (c : Char) (h : c ∈ collapseWS l) :
    c = ' ' ∨ (c ∈ l ∧ isWS c = false) := by
  induction l with
  | nil => cases h
  | cons a t ih =>
    cases t with
    | nil =>
      by_cases ha : isWS a = true
      · left
        simpa [collapseWS, ha] using h
      · right
        have ha' : isWS a = false := Bool.of_not_eq_true ha
        simp only [collapseWS, ha', Bool.false_eq_true, if_false, List.mem_singleton] at h
        subst h
        exact ⟨by simp, ha'⟩
    | cons b t2 =>
      by_cases ha : isWS a = true
      · by_cases hb : isWS b = true
        · rw [show collapseWS (a :: b :: t2) = collapseWS (b :: t2) from by
            simp [collapseWS, ha, hb]] at h
          rcases ih h with h1 | ⟨h2, h3⟩
          · exact Or.inl h1
          · exact Or.inr ⟨by simp [h2], h3⟩
        · rw [show collapseWS (a :: b :: t2) = ' ' :: collapseWS (b :: t2) from by
            simp [collapseWS, ha, hb]] at h
          rcases List.mem_cons.mp h with h1 | h1
          · exact Or.inl h1
          · rcases ih h1 with h2 | ⟨h2, h3⟩
            · exact Or.inl h2
            · exact Or.inr ⟨by simp [h2], h3⟩
      · rw [show collapseWS (a :: b :: t2) = a :: collapseWS (b :: t2) from by
            simp [collapseWS, ha]] at h
        rcases List.mem_cons.mp h with h1 | h1
        · subst h1
          exact Or.inr ⟨by simp, by simpa using ha⟩
        · rcases ih h1 with h2 | ⟨h2, h3⟩
          · exact Or.inl h2
          · exact Or.inr ⟨by simp [h2], h3⟩

theorem collapseWS_cons_nonws (a : Char) (l : List Char) (h : isWS a = false) :
    collapseWS (a :: l) = a :: collapseWS l := by
  cases l <;> simp [collapseWS, h]

theorem noTwoWS_collapseWS (l : List Char) : noTwoWS (collapseWS l) = true := by
  induction l with
  | nil => rfl
  | cons a t ih =>
    cases t with
    | nil =>
      by_cases ha : isWS a = true <;> simp [collapseWS, ha, noTwoWS]
    | cons b t2 =>
      by_cases ha : isWS a = true
      · by_cases hb : isWS b = true
        · rw [show collapseWS (a :: b :: t2) = collapseWS (b :: t2) from by
            simp [collapseWS, ha, hb]]
          exact ih
        · rw [show collapseWS (a :: b :: t2) = ' ' :: collapseWS (b :: t2) from by
            simp [collapseWS, ha, hb]]
          have hb' : isWS b = false := Bool.of_not_eq_true hb
          rw [collapseWS_cons_nonws b t2 hb'] at ih ⊢
          exact noTwoWS_cons_of ' ' _ ih fun d t3 hdt => by
            have : d = b := by
              have := congrArg List.head? hdt
              simpa using this.symm
            simp [this, hb']
      · have ha' : isWS a = false := Bool.of_not_eq_true ha
        rw [collapseWS_cons_nonws a _ ha']
        exact noTwoWS_cons_of a _ ih fun d t3 hdt => by simp [ha']

theorem collapseWS_eq_self (l : List Char) (h1 : ∀ c ∈ l, isWS c = true → c = ' ')
    (h2 : noTwoWS l = true) : collapseWS l = l := by
  induction l with
  | nil => rfl
  | cons a t ih =>
    cases t with
    | nil =>
      by_cases ha : isWS a = true
      · have ha' : a = ' ' := h1 a (by simp) ha
        subst ha'
        simp [collapseWS, ha]
      · simp [collapseWS, ha]
    | cons b t2 =>
      by_cases ha : isWS a = true
      · have hb : isWS b = false := by
          simp only [noTwoWS, Bool.and_eq_true, Bool.not_eq_true'] at h2
          rcases Bool.and_eq_false_iff.mp h2.1 with h | h
          · rw [ha] at h; cases h
          · exact h
        have ha' : a = ' ' := h1 a (by simp) ha
        rw [show collapseWS (a :: b :: t2) = ' ' :: collapseWS (b :: t2) from by
          simp [collapseWS, ha, hb]]
        rw [ih (fun c hc hw => h1 c (by simp [hc]) hw) (noTwoWS_tail a _ h2), ha']
      · rw [collapseWS_cons_nonws a _ (Bool.of_not_eq_true ha),
          ih (fun c hc hw => h1 c (by simp [hc]) hw) (noTwoWS_tail a _ h2)]

theorem collapseWS_length (l : List Char) : (collapseWS l).length ≤ l.length := by
  induction l with
  | nil => simp [collapseWS]
  | cons a t ih =>
    cases t with
    | nil => by_cases ha : isWS a = true <;> simp [collapseWS, ha]
    | cons b t2 =>
      by_cases ha : isWS a = true
      · by_cases hb : isWS b = true
        · rw [show collapseWS (a :: b :: t2) = collapseWS (b :: t2) from by
            simp [collapseWS, ha, hb]]
          exact le_trans ih (by simp)
        · rw [show collapseWS (a :: b :: t2) = ' ' :: collapseWS (b :: t2) from by
            simp [collapseWS, ha, hb]]
          simpa using ih
      · rw [collapseWS_cons_nonws a _ (Bool.of_not_eq_true ha)]
        simpa using ih

theorem dropTrailing_cons_pos (p : Char → Bool) (c : Char) (cs : List Char)
    (hr : dropTrailing p cs = []) (hc : p c = true) : dropTrailing p (c :: cs) = [] := by
  simp [dropTrailing, hr, hc]

theorem dropTrailing_cons_neg1 (p : Char → Bool) (c : Char) (cs : List Char)
    (hr : dropTrailing p cs ≠ []) :
    dropTrailing p (c :: cs) = c :: dropTrailing p cs := by
  simp [dropTrailing, hr]

theorem dropTrailing_cons_neg2 (p : Char → Bool) (c : Char) (cs : List Char)
    (hc : p c = false) : dropTrailing p (c :: cs) = c :: dropTrailing p cs := by
  simp [dropTrailing, hc]

theorem dropTrailing_pfx (p : Char → Bool) (l : List Char) :
    ∃ t, dropTrailing p l ++ t = l := by
  induction l with
  | nil => exact ⟨[], rfl⟩
  | cons c cs ih =>
    by_cases h1 : dropTrailing p cs = []
    · by_cases h2 : p c = true
      · exact ⟨c :: cs, by rw [dropTrailing_cons_pos p c cs h1 h2]; rfl⟩
      · rcases ih with ⟨t, ht⟩
        exact ⟨t, by
          rw [dropTrailing_cons_neg2 p c cs (Bool.of_not_eq_true h2), List.cons_append, ht]⟩
    · rcases ih with ⟨t, ht⟩
      exact ⟨t, by rw [dropTrailing_cons_neg1 p c cs h1, List.cons_append, ht]⟩

theorem dropTrailing_last (p : Char → Bool) (l : List Char) :
    ∀ c, (dropTrailing p l).getLast? = some c → p c = false := by
  induction l with
  | nil => intro c h; cases h
  | cons a cs ih =>
    intro c h
    by_cases h1 : dropTrailing p cs = []
    · by_cases h2 : p a = true
      · rw [dropTrailing_cons_pos p a cs h1 h2] at h; cases h
      · rw [dropTrailing_cons_neg2 p a cs (Bool.of_not_eq_true h2), h1] at h
        have : c = a := by simpa using h.symm
        subst this
        exact Bool.of_not_eq_true h2
    · rw [dropTrailing_cons_neg1 p a cs h1] at h
      rcases hr : dropTrailing p cs with _ | ⟨b, t⟩
      · exact absurd hr h1
      · rw [hr, List.getLast?_cons_cons] at h
        exact ih c (by rw [hr]; exact h)

theorem dropTrailing_eq_self (p : Char → Bool) (l : List Char)
    (h : ∀ c, l.getLast? = some c → p c = false) : dropTrailing p l = l := by
  induction l with
  | nil => rfl
  | cons a cs ih =>
    cases cs with
    | nil =>
      rw [dropTrailing_cons_neg2 p a [] (h a (by simp))]
      rfl
    | cons b t =>
      have hcs : dropTrailing p (b :: t) = b :: t :=
        ih fun c hc => h c (by rw [List.getLast?_cons_cons]; exact hc)
      rw [dropTrailing_cons_neg1 p a (b :: t) (by rw [hcs]; simp), hcs]

theorem map_id_of (f : Char → Char) (l : List Char) (h : ∀ c ∈ l, f c = c) :
    l.map f = l := by
  induction l with
  | nil => rfl
  | cons a t ih => simp [h a (by simp), ih fun c hc => h c (by simp [hc])]

theorem trimWith_sub (p : Char → Bool) (l : List Char) (c : Char)
    (h : c ∈ trimWith p l) : c ∈ l := by
  rcases dropTrailing_pfx p (l.dropWhile p) with ⟨t, ht⟩
  have h2 : c ∈ l.dropWhile p := by
    rw [← ht]
    exact List.mem_append_left _ h
  rw [← List.takeWhile_append_dropWhile p l]
  exact List.mem_append_right _ h2

theorem trimWith_length (p : Char → Bool) (l : List Char) :
    (trimWith p l).length ≤ l.length := by
  rcases dropTrailing_pfx p (l.dropWhile p) with ⟨t, ht⟩
  have h1 : (trimWith p l).length ≤ (l.dropWhile p).length :=
    calc (trimWith p l).length ≤ (trimWith p l).length + t.length := Nat.le_add_right _ _
    _ = (l.dropWhile p).length := by rw [← List.length_append, trimWith, ht]
  have h2 : (l.dropWhile p).length ≤ l.length := by
    conv_rhs => rw [← List.takeWhile_append_dropWhile p l]
    rw [List.length_append]
    exact Nat.le_add_left _ _
  exact le_trans h1 h2

theorem trimWith_noTwo (p : Char → Bool) (l : List Char) (h : noTwoWS l = true) :
    noTwoWS (trimWith p l) = true := by
  have h1 : noTwoWS (l.dropWhile p) = true :=
    noTwoWS_append_right (l.takeWhile p) _
      (by rw [List.takeWhile_append_dropWhile p l]; exact h)
  rcases dropTrailing_pfx p (l.dropWhile p) with ⟨t, ht⟩
  exact noTwoWS_append_left _ t (by rw [trimWith]; rw [ht]; exact h1)

theorem trimWith_head (p : Char → Bool) (l : List Char) (c : Char) (t : List Char)
    (h : trimWith p l = c :: t) : p c = false := by
  rcases dropTrailing_pfx p (l.dropWhile p) with ⟨t2, ht2⟩
  rw [trimWith] at h
  rw [h] at ht2
  exact dropWhile_head_not p l c (t ++ t2) (by rw [← ht2, List.cons_append])

theorem trimWith_last (p : Char → Bool) (l : List Char) (c : Char)
    (h : (trimWith p l).getLast? = some c) : p c = false :=
  dropTrailing_last p _ c h

theorem trimWith_eq_self (p : Char → Bool) (l : List Char)
    (hh : ∀ c t, l = c :: t → p c = false)
    (hl : ∀ c, l.getLast? = some c → p c = false) : trimWith p l = l := by
  rw [trimWith, dropWhile_eq_self_of p l hh, dropTrailing_eq_self p l hl]

theorem repFolder_idem (c : Char) : repFolder (repFolder c) = repFolder c := by
  by_cases h : isIllegalChar c = true
  · simp only [repFolder, h, if_true]
    decide
  · simp only [repFolder, h, if_false, Bool.false_eq_true]

theorem repFile_idem (c : Char) : repFile (repFile c) = repFile c := by
  by_cases h : isIllegalChar c = true
  · simp only [repFile, h, if_true]
    decide
  · simp only [repFile, h, if_false, Bool.false_eq_true]

theorem sanitizeCore_fix (rep : Char → Char) (p : Char → Bool) (k : Nat)
    (hrep : ∀ c, rep (rep c) = rep c) (hsp : rep ' ' = ' ')
    (l : List Char) (hlen : l.length ≤ k) :
    sanitizeCore rep p k (sanitizeCore rep p k l) = sanitizeCore rep p k l := by
  have hlen_t : (trimWith p (collapseWS (l.map rep))).length ≤ k :=
    le_trans (trimWith_length _ _)
      (le_trans (collapseWS_length _) (by rw [List.length_map]; exact hlen))
  have hcore : sanitizeCore rep p k l = trimWith p (collapseWS (l.map rep)) := by
    rw [sanitizeCore, List.take_of_length_le hlen_t]
  set t := trimWith p (collapseWS (l.map rep)) with ht
  rw [hcore]
  have hmem : ∀ c ∈ t, c = ' ' ∨ (isWS c = false ∧ ∃ c0, c = rep c0) := by
    intro c hc
    have hc2 : c ∈ collapseWS (l.map rep) := trimWith_sub p _ c hc
    rcases mem_collapseWS _ c hc2 with h | ⟨hm, hw⟩
    · exact Or.inl h
    · refine Or.inr ⟨hw, ?_⟩
      rcases List.mem_map.mp hm with ⟨c0, _, hc0⟩
      exact ⟨c0, hc0.symm⟩
  have hmap : t.map rep = t := by
    apply map_id_of
    intro c hc
    rcases hmem c hc with rfl | ⟨_, c0, rfl⟩
    · exact hsp
    · exact hrep c0
  have hws : ∀ c ∈ t, isWS c = true → c = ' ' := by
    intro c hc hwc
    rcases hmem c hc with rfl | ⟨hw, _⟩
    · rfl
    · rw [hw] at hwc; cases hwc
  have hnt : noTwoWS t = true := trimWith_noTwo p _ (noTwoWS_collapseWS _)
  have hcol : collapseWS t = t := collapseWS_eq_self t hws hnt
  have htrim : trimWith p t = t := by
    apply trimWith_eq_self
    · intro c t' he
      exact trimWith_head p (collapseWS (l.map rep)) c t' (by rw [← ht, he])
    · intro c hc
      exact trimWith_last p (collapseWS (l.map rep)) c (by rw [← ht]; exact hc)
  rw [sanitizeCore, hmap, hcol, htrim, List.take_of_length_le hlen_t]

/-- Folder-name sanitization is idempotent on inputs short enough not to be
cut by the 100-character truncation. -/
theorem sanitizeFolderName_idem_of_short (s : List Char) (h : s.length ≤ 100) :
    sanitizeFolderName (sanitizeFolderName s) = sanitizeFolderName s := by
  have hD : sanitizeFolderName "Classroom_Download".data = "Classroom_Download".data := by
    decide
  by_cases h1 : s = []
  · rw [show sanitizeFolderName s = "Classroom_Download".data from by
      rw [sanitizeFolderName, if_pos h1], hD]
  · by_cases h2 : sanitizeCore repFolder isWS 100 s = []
    · rw [show sanitizeFolderName s = "Classroom_Download".data from by
        rw [sanitizeFolderName, if_neg h1, if_pos h2], hD]
    · have hfix := sanitizeCore_fix repFolder isWS 100 repFolder_idem (by decide) s h
      rw [show sanitizeFolderName s = sanitizeCore repFolder isWS 100 s from by
        rw [sanitizeFolderName, if_neg h1, if_neg h2]]
      rw [sanitizeFolderName, if_neg h2, hfix, if_neg h2]

theorem extSplit_decomp (l name ext : List Char) (h : extSplit l = some (name, ext)) :
    l = name ++ ext ∧ ∃ seg, ext = '.' :: seg ∧ (∀ c ∈ seg, isAlnumCh c = true) ∧
      2 ≤ seg.length ∧ seg.length ≤ 5 := by
  simp only [extSplit] at h
  split at h
  case h_2 => cases h
  case h_1 c pre heq =>
    split at h
    case isFalse => cases h
    case isTrue hcond =>
      injection h with h2
      injection h2 with hname hext
      have hlr : l.reverse = l.reverse.takeWhile isAlnumCh ++ ('.' :: pre) := by
        conv_lhs => rw [← List.takeWhile_append_dropWhile isAlnumCh l.reverse]
        rw [heq]
      have hl : l = pre.reverse ++ '.' :: (l.reverse.takeWhile isAlnumCh).reverse := by
        have := congrArg List.reverse hlr
        simpa using this
      constructor
      · rw [← hname, ← hext]
        exact hl
      · refine ⟨(l.reverse.takeWhile isAlnumCh).reverse, hext.symm, ?_, ?_, ?_⟩
        · intro c hc
          exact List.mem_takeWhile_imp (List.mem_reverse.mp hc)
        · have := (Bool.and_eq_true _ _).mp hcond
          simpa using of_decide_eq_true this.1
        · have := (Bool.and_eq_true _ _).mp hcond
          simpa using of_decide_eq_true this.2

theorem extSplit_build (m seg : List Char) (hseg : ∀ c ∈ seg, isAlnumCh c = true)
    (h2 : 2 ≤ seg.length) (h5 : seg.length ≤ 5) :
    extSplit (m ++ '.' :: seg) = some (m, '.' :: seg) := by
  have hrev : (m ++ '.' :: seg).reverse = seg.reverse ++ '.' :: m.reverse := by
    simp
  have htw : (seg.reverse ++ '.' :: m.reverse).takeWhile isAlnumCh = seg.reverse :=
    takeWhile_until _ _ _ _ (fun c hc => hseg c (List.mem_reverse.mp hc)) (by decide)
  have hdw : (seg.reverse ++ '.' :: m.reverse).dropWhile isAlnumCh = '.' :: m.reverse :=
    dropWhile_until _ _ _ _ (fun c hc => hseg c (List.mem_reverse.mp hc)) (by decide)
  simp only [extSplit, hrev, htw, hdw]
  rw [if_pos (by simp [h2, h5])]
  simp

/-- File-name sanitization is idempotent on inputs that already carry a
recognized extension and are short enough not to be cut by the 200-character
truncation. -/
theorem sanitizeFilename_idem_of_ext (s url name ext : List Char)
    (hsplit : extSplit s = some (name, ext)) (hlen : s.length ≤ 200) :
    sanitizeFilename (sanitizeFilename s url) url = sanitizeFilename s url := by
  obtain ⟨hdecomp, seg, hext, hseg, hseg2, hseg5⟩ := extSplit_decomp s name ext hsplit
  have hnamelen : name.length ≤ 200 := by
    rw [hdecomp, List.length_append] at hlen
    omega
  have h1 : sanitizeFilename s url = sanitizeNamePart name ++ ext := by
    simp only [sanitizeFilename, hsplit]
  have hm_fix : sanitizeNamePart (sanitizeNamePart name) = sanitizeNamePart name := by
    by_cases hc : sanitizeCore repFile isTrimCh 200 name = []
    · rw [show sanitizeNamePart name = "unnamed_file".data from by
        rw [sanitizeNamePart, if_pos hc]]
      decide
    · have hfix := sanitizeCore_fix repFile isTrimCh 200 repFile_idem (by decide) name hnamelen
      rw [show sanitizeNamePart name = sanitizeCore repFile isTrimCh 200 name from by
        rw [sanitizeNamePart, if_neg hc]]
      rw [sanitizeNamePart, hfix, if_neg hc]
  have hsplit2 : extSplit (sanitizeNamePart name ++ ext) = some (sanitizeNamePart name, ext) := by
    rw [hext]
    exact extSplit_build _ seg hseg hseg2 hseg5
  rw [h1]
  simp only [sanitizeFilename, hsplit2]
  rw [hm_fix]

set_option maxRecDepth 8000 in
/-- Counterexample for claim C3: neither sanitizer is idempotent on all
inputs.  `sanitizeFilename "a_.pdf "` gives `"a_.pdf"`, whose second
sanitization splits off `".pdf"` and trims the now-trailing underscore,
giving `"a.pdf"`; and on a 101-character input the folder sanitizer's
truncation to 100 characters exposes a trailing space that a second
application trims away. -/
theorem sanitize_idem_cex :
    sanitizeFilename (sanitizeFilename "a_.pdf ".data []) [] ≠
      sanitizeFilename "a_.pdf ".data [] ∧
    sanitizeFolderName (sanitizeFolderName (List.replicate 99 'a' ++ [' ', 'b'])) ≠
      sanitizeFolderName (List.replicate 99 'a' ++ [' ', 'b']) := by
  constructor <;> decide

/-- Claim C3, amended: `sanitizeFolderName` is idempotent on every input of
length at most 100 (so that the truncation to 100 characters is the
identity), and `sanitizeFilename` is idempotent, for any fixed url, on every
input of length at most 200 that already carries a recognized extension (a
trailing dot plus 2–5 alphanumerics); on other inputs a second application
can differ, as the counterexample shows. -/
theorem sanitize_idem_amended :
    (∀ s : List Char, s.length ≤ 100 →
      sanitizeFolderName (sanitizeFolderName s) = sanitizeFolderName s) ∧
    (∀ s url name ext : List Char, extSplit s = some (name, ext) → s.length ≤ 200 →
      sanitizeFilename (sanitizeFilename s url) url = sanitizeFilename s url) :=
  ⟨fun s h => sanitizeFolderName_idem_of_short s h,
   fun s url name ext h1 h2 => sanitizeFilename_idem_of_ext s url name ext h1 h2⟩

/-- Witness for the amended C3 at concrete inputs. -/
theorem sanitize_idem_amended_witness :
    sanitizeFolderName (sanitizeFolderName "Homework".data) =
      sanitizeFolderName "Homework".data ∧
    sanitizeFilename (sanitizeFilename "notes v1.pdf".data []) [] =
      sanitizeFilename "notes v1.pdf".data [] :=
  ⟨sanitize_idem_amended.1 "Homework".data (by decide),
   sanitize_idem_amended.2 "notes v1.pdf".data [] "notes v1".data ".pdf".data
     (by decide) (by decide)⟩

theorem scanGo_mem_url (l : List AnchorSnapshot) :
    ∀ (seen : List (List Char)) (r : Attachment), r ∈ scanGo seen l → r.url ∉ seen := by
  induction l with
  | nil => intro seen r h; simp [scanGo] at h
  | cons a rest ih =>
    intro seen r h
    simp only [scanGo] at h
    by_cases h1 : a.href = [] ∨ a.href ∈ seen
    · rw [if_pos h1] at h
      exact ih seen r h
    · rw [if_neg h1] at h
      by_cases h2 : isNavigationLink a.href = true
      · rw [if_pos h2] at h
        exact ih seen r h
      · rw [if_neg h2] at h
        by_cases h3 : hasValidExtension (extractFilename a) = true
        · rw [if_pos h3] at h
          rcases List.mem_cons.mp h with rfl | hmem
          · intro hin
            exact h1 (Or.inr hin)
          · intro hin
            exact ih (a.href :: seen) r hmem (by simp [hin])
        · rw [if_neg h3] at h
          exact ih seen r h

theorem scanGo_pairwise (l : List AnchorSnapshot) :
    ∀ seen : List (List Char),
      List.Pairwise (fun r s : Attachment => r.url ≠ s.url) (scanGo seen l) := by
  induction l with
  | nil => intro seen; simp [scanGo]
  | cons a rest ih =>
    intro seen
    simp only [scanGo]
    by_cases h1 : a.href = [] ∨ a.href ∈ seen
    · rw [if_pos h1]; exact ih seen
    · rw [if_neg h1]
      by_cases h2 : isNavigationLink a.href = true
      · rw [if_pos h2]; exact ih seen
      · rw [if_neg h2]
        by_cases h3 : hasValidExtension (extractFilename a) = true
        · rw [if_pos h3]
          refine List.Pairwise.cons ?_ (ih _)
          intro s hs heq
          exact scanGo_mem_url rest (a.href :: seen) s hs (by simp [← heq])
        · rw [if_neg h3]; exact ih seen

theorem scanGo_valid (l : List AnchorSnapshot) :
    ∀ (seen : List (List Char)) (r : Attachment), r ∈ scanGo seen l →
      hasValidExtension r.filename = true := by
  induction l with
  | nil => intro seen r h; simp [scanGo] at h
  | cons a rest ih =>
    intro seen r h
    simp only [scanGo] at h
    generalize hf : extractFilename a = fn at h
    by_cases h1 : a.href = [] ∨ a.href ∈ seen
    · rw [if_pos h1] at h
      exact ih seen r h
    · rw [if_neg h1] at h
      by_cases h2 : isNavigationLink a.href = true
      · rw [if_pos h2] at h
        exact ih seen r h
      · rw [if_neg h2] at h
        by_cases h3 : hasValidExtension fn = true
        · rw [if_pos h3] at h
          rcases List.mem_cons.mp h with rfl | hmem
          · exact h3
          · exact ih (a.href :: seen) r hmem
        · rw [if_neg h3] at h
          exact ih seen r h

set_option maxRecDepth 8000 in
set_option maxHeartbeats 1600000 in
/-- Claim C5: within one scan the emitted records carry pairwise-distinct
URLs, and a page with two anchors pointing to the identical URL yields
exactly one record for it. -/
theorem scanForFiles_dedup :
    (∀ anchors : List AnchorSnapshot,
      List.Pairwise (fun r s : Attachment => r.url ≠ s.url) (scanForFiles anchors)) ∧
    scanForFiles [aW, aW] =
      [⟨"https://drive.google.com/file/d/abc/view".data, "notes.pdf".data⟩] := by
  constructor
  · intro anchors
    exact scanGo_pairwise _ []
  · decide

theorem getLast?_append_right (l₁ l₂ : List Char) (h : l₂ ≠ []) :
    (l₁ ++ l₂).getLast? = l₂.getLast? := by
  induction l₁ with
  | nil => rfl
  | cons a t ih =>
    rw [List.cons_append]
    cases ht : t ++ l₂ with
    | nil => exact absurd (List.append_eq_nil.mp ht).2 h
    | cons b t2 => rw [List.getLast?_cons_cons, ← ht, ih]

theorem sfx_last (s m : List Char) (hs : s <:+ m) (hne : s ≠ []) :
    m.getLast? = s.getLast? := by
  rcases hs with ⟨t, rfl⟩
  exact getLast?_append_right t s hne

theorem valid_ext_last_ne : ∀ e ∈ VALID_EXTENSIONS, ('.' :: e).getLast? ≠ some 'e' := by
  decide

/-- Claim C6: every record emitted by the scanner has a filename that,
case-insensitively, ends with a dot and one of the allow-listed extensions;
in particular no emitted filename ends in `.exe`. -/
theorem scanForFiles_extensions :
    (∀ (anchors : List AnchorSnapshot) (r : Attachment), r ∈ scanForFiles anchors →
      ∃ e, e ∈ VALID_EXTENSIONS ∧ ('.' :: e) <:+ r.filename.map lowerChar) ∧
    (∀ (anchors : List AnchorSnapshot) (r : Attachment), r ∈ scanForFiles anchors →
      ¬ (".exe".data <:+ r.filename.map lowerChar)) := by
  have part1 : ∀ (anchors : List AnchorSnapshot) (r : Attachment),
      r ∈ scanForFiles anchors →
      ∃ e, e ∈ VALID_EXTENSIONS ∧ ('.' :: e) <:+ r.filename.map lowerChar := by
    intro anchors r h
    have h1 : hasValidExtension r.filename = true := scanGo_valid _ [] r h
    rw [hasValidExtension, List.any_eq_true] at h1
    rcases h1 with ⟨e, he, hsuf⟩
    exact ⟨e, he, (isSuffixOf_iff_sfx _ _).mp hsuf⟩
  refine ⟨part1, ?_⟩
  intro anchors r h hexe
  rcases part1 anchors r h with ⟨e, he, hsuf⟩
  have h1 := sfx_last _ _ hsuf (by simp)
  have h2 := sfx_last _ _ hexe (by decide)
  rw [h1, show (".exe".data : List Char).getLast? = some 'e' from by decide] at h2
  exact valid_ext_last_ne e he h2

set_option maxRecDepth 8000 in
set_option maxHeartbeats 1600000 in
/-- Witness for C6: the concrete scan of `aW` emits a record whose filename
ends in an allow-listed extension. -/
theorem scanForFiles_extensions_witness :
    ∃ e, e ∈ VALID_EXTENSIONS ∧ ('.' :: e) <:+
      (Attachment.mk "https://drive.google.com/file/d/abc/view".data
        "notes.pdf".data).filename.map lowerChar :=
  scanForFiles_extensions.1 [aW]
    ⟨"https://drive.google.com/file/d/abc/view".data, "notes.pdf".data⟩ (by decide)
